import Mathlib

/-!
Verification of the benthos stream-processing slice: the NSQ input reader
(`nsqReader.read` / `ReadBatch` / `Close`), the resource reconfiguration
engine (`resourceFileInfo.applyChanges`, `Reader.reactResourceUpdate`), the
`mutation` processor, and the Tencent COS batch output.

Each Go function is shallowly embedded as an executable Lean definition;
stateful code is explicit state passing.  Messages, configurations and
clients are abstracted to their observable payloads (ids, labels, byte
lists); channel selection and IO results (which message arrives, whether a
file parses, whether a Store succeeds) are passed in as explicit events or
oracles, exactly as the Go code receives them from the outside world.
-/

/-! ### NSQ reader: origin model

The reader (`internal/impl/nsq` input) hands deliveries to the pipeline and
acks them back to the origin via the go-nsq client `Message`.  A delivery at
the origin is `queued` (available for delivery), `inflight` (delivered,
unacknowledged) or `finished` (permanently finalized).  The go-nsq client
`Message` responds to the origin at most once: both `Finish` and `Requeue`
are guarded by a compare-and-swap on a `responded` flag, so whichever of the
two fires first wins and later calls are no-ops.  We track, per message id,
its status at the origin and the `responded` flag of the client-side message
object currently bound to it (reset on each fresh delivery). -/

/-- Status of one delivery at the (simulated) NSQ origin. -/
inductive MsgStatus where
  | queued
  | inflight
  | finished
deriving DecidableEq, Repr

/-- Combined state of the simulated origin and the client-side go-nsq
message objects: per message id, its origin status and the one-shot
`responded` flag of the message object bound to the current delivery. -/
structure NsqState where
  originStatus : Nat → MsgStatus
  responded : Nat → Bool

/-- Delivery of message `id` from the origin to the consumer: the origin
marks it in flight and the client receives a fresh message object whose
`responded` flag is unset. -/
def msgDeliver (id : Nat) (s : NsqState) : NsqState :=
  { originStatus := fun x => if x = id then .inflight else s.originStatus x
    responded := fun x => if x = id then false else s.responded x }

/-- go-nsq `Message.Requeue`: if the message has already responded this is a
no-op, otherwise it responds and the origin returns the delivery to the
queue (redeliverable). -/
def msgRequeue (id : Nat) (s : NsqState) : NsqState :=
  if s.responded id then s
  else
    { originStatus := fun x => if x = id then .queued else s.originStatus x
      responded := fun x => if x = id then true else s.responded x }

/-- go-nsq `Message.Finish`: if the message has already responded this is a
no-op, otherwise it responds and the origin permanently finalizes the
delivery. -/
def msgFinish (id : Nat) (s : NsqState) : NsqState :=
  if s.responded id then s
  else
    { originStatus := fun x => if x = id then .finished else s.originStatus x
      responded := fun x => if x = id then true else s.responded x }

/-- The acknowledgment closure returned by `nsqReader.ReadBatch`: on a
failure outcome (`res != nil`, here `failed = true`) it calls
`msg.Requeue(-1)` and then `msg.Finish()`; on a success outcome it calls
`msg.Finish()` only. -/
def nsqAckFn (id : Nat) (failed : Bool) (s : NsqState) : NsqState :=
  let s1 := if failed then msgRequeue id s else s
  msgFinish id s1

/-- Requeue-then-finish pass applied to every tracked unacknowledged
message, as performed by `nsqReader.read` when the interrupt channel
fires. -/
def requeueFinishAll (l : List Nat) (s : NsqState) : NsqState :=
  l.foldl (fun st m => msgFinish m (msgRequeue m st)) s

/-- Component errors relevant to the reader (`internal/component/errors.go`):
`ErrTimeout` and `ErrTypeClosed`. -/
inductive ComponentErr where
  | errTimeout
  | errTypeClosed
deriving DecidableEq, Repr

/-- State of the `nsqReader` that `read`/`ReadBatch` manipulate: the
`unAckMsgs` bookkeeping list and the origin/client message state. -/
structure NsqReader where
  unAckMsgs : List Nat
  st : NsqState

/-- Event that wakes the `select` inside `nsqReader.read`: a message arrives
on `internalMessages`, the context fires, or the interrupt channel is
closed. -/
inductive ReadEvent where
  | msgAvailable (id : Nat)
  | ctxDone
  | interrupt

/-- Embedding of `nsqReader.read`: on a message, return it; on context
done, return `ErrTimeout`; on interrupt, requeue and finish every tracked
unacknowledged message, clear the list, and return `ErrTypeClosed`. -/
def nsqRead (ev : ReadEvent) (r : NsqReader) : NsqReader × Except ComponentErr Nat :=
  match ev with
  | .msgAvailable id => ({ r with st := msgDeliver id r.st }, .ok id)
  | .ctxDone => (r, .error .errTimeout)
  | .interrupt =>
      ({ unAckMsgs := [], st := requeueFinishAll r.unAckMsgs r.st },
        .error .errTypeClosed)

/-- Embedding of `nsqReader.ReadBatch`: call `read`; on error propagate it,
otherwise append the message to `unAckMsgs` and return the batch (the
acknowledgment closure is `nsqAckFn`). -/
def nsqReadBatch (ev : ReadEvent) (r : NsqReader) : NsqReader × Except ComponentErr Nat :=
  match nsqRead ev r with
  | (r1, .error e) => (r1, .error e)
  | (r1, .ok id) => ({ r1 with unAckMsgs := r1.unAckMsgs ++ [id] }, .ok id)

/-! Helper lemmas about the per-id operations. -/

theorem msgRequeue_other (id m : Nat) (s : NsqState) (h : m ≠ id) :
    (msgRequeue id s).originStatus m = s.originStatus m ∧
      (msgRequeue id s).responded m = s.responded m := by
  unfold msgRequeue
  by_cases hr : s.responded id <;> simp [hr, h]

theorem msgFinish_other (id m : Nat) (s : NsqState) (h : m ≠ id) :
    (msgFinish id s).originStatus m = s.originStatus m ∧
      (msgFinish id s).responded m = s.responded m := by
  unfold msgFinish
  by_cases hr : s.responded id <;> simp [hr, h]

theorem msgFinish_responded (id : Nat) (s : NsqState) (h : s.responded id = true) :
    msgFinish id s = s := by
  unfold msgFinish
  simp [h]

theorem msgRequeue_responded (id : Nat) (s : NsqState) (h : s.responded id = true) :
    msgRequeue id s = s := by
  unfold msgRequeue
  simp [h]

/-- One requeue-finish step on a message that has already responded changes
nothing about that message. -/
theorem step_preserves_settled (a m : Nat) (s : NsqState)
    (h1 : s.responded m = true) :
    (msgFinish a (msgRequeue a s)).responded m = true ∧
      (msgFinish a (msgRequeue a s)).originStatus m = s.originStatus m := by
  by_cases ha : m = a
  · subst ha
    rw [msgRequeue_responded m s h1, msgFinish_responded m s h1]
    exact ⟨h1, rfl⟩
  · have hr := msgRequeue_other a m s ha
    have hf := msgFinish_other a m (msgRequeue a s) ha
    exact ⟨hf.2.trans (hr.2.trans h1), hf.1.trans hr.1⟩

/-- The interrupt pass leaves any already-responded message untouched. -/
theorem requeueFinishAll_settled (l : List Nat) (s : NsqState) (m : Nat)
    (h1 : s.responded m = true) :
    (requeueFinishAll l s).responded m = true ∧
      (requeueFinishAll l s).originStatus m = s.originStatus m := by
  induction l generalizing s with
  | nil => exact ⟨h1, rfl⟩
  | cons a t ih =>
      have hs := step_preserves_settled a m s h1
      have ht := ih (msgFinish a (msgRequeue a s)) hs.1
      exact ⟨ht.1, ht.2.trans hs.2⟩

/-- In the interrupt pass, a message that has not yet responded ends up
queued (requeued at the origin) once its id is processed. -/
theorem requeueFinishAll_unacked (l : List Nat) (s : NsqState) (m : Nat)
    (hm : m ∈ l) (h1 : s.responded m = false) :
    (requeueFinishAll l s).originStatus m = .queued := by
  induction l generalizing s with
  | nil => cases hm
  | cons a t ih =>
      by_cases ha : m = a
      · subst ha
        have hreq : (msgRequeue m s).originStatus m = .queued ∧
            (msgRequeue m s).responded m = true := by
          unfold msgRequeue
          simp [h1]
        have hfin := msgFinish_responded m (msgRequeue m s) hreq.2
        have hsettled := requeueFinishAll_settled t (msgFinish m (msgRequeue m s)) m
          (by rw [hfin]; exact hreq.2)
        show (requeueFinishAll t (msgFinish m (msgRequeue m s))).originStatus m = .queued
        rw [hsettled.2, hfin, hreq.1]
      · rcases List.mem_cons.mp hm with h | h
        · exact absurd h ha
        · have hr := msgRequeue_other a m s ha
          have hf := msgFinish_other a m (msgRequeue a s) ha
          exact ih (msgFinish a (msgRequeue a s)) h (hf.2.trans (hr.2.trans h1))

theorem msgRequeue_fresh (id : Nat) (s : NsqState) (h : s.responded id = false) :
    (msgRequeue id s).originStatus id = .queued ∧
      (msgRequeue id s).responded id = true := by
  unfold msgRequeue
  simp [h]

theorem msgFinish_fresh (id : Nat) (s : NsqState) (h : s.responded id = false) :
    (msgFinish id s).originStatus id = .finished ∧
      (msgFinish id s).responded id = true := by
  unfold msgFinish
  simp [h]

/-! ### NSQ reader: close-once model

`nsqReader.Close` runs `interruptOnce.Do(func() { close(n.interruptChan) })`
followed by `disconnect`.  We track whether the channel has been closed,
whether the `sync.Once` has fired, how many raw channel closes were
executed, whether a double close (a runtime panic in Go) happened, and how
many times the teardown (`disconnect`) ran. -/

/-- Observable state of the close path of one `nsqReader`. -/
structure CloseState where
  chanClosed : Bool
  onceDone : Bool
  closeCount : Nat
  panicked : Bool
  disconnects : Nat
deriving DecidableEq, Repr

/-- Raw Go `close(chan)`: closing an already-closed channel panics. -/
def rawChanClose (s : CloseState) : CloseState :=
  if s.chanClosed then { s with panicked := true }
  else { s with chanClosed := true, closeCount := s.closeCount + 1 }

/-- `sync.Once.Do` applied to the raw channel close: runs the close only
the first time. -/
def interruptOnceDo (s : CloseState) : CloseState :=
  if s.onceDone then s else rawChanClose { s with onceDone := true }

/-- Embedding of `nsqReader.Close`: fire the one-time interrupt signal and
then run the teardown (`disconnect`). -/
def nsqClose (s : CloseState) : CloseState :=
  let s1 := interruptOnceDo s
  { s1 with disconnects := s1.disconnects + 1 }

/-- N successive invocations of `Close`. -/
def nsqCloseIter : Nat → CloseState → CloseState
  | 0, s => s
  | n + 1, s => nsqCloseIter n (nsqClose s)

/-- Close state of a freshly constructed reader (`newNSQReader`). -/
def newReaderCloseState : CloseState :=
  { chanClosed := false, onceDone := false, closeCount := 0, panicked := false,
    disconnects := 0 }

theorem nsqCloseIter_after (k : Nat) (c : Nat) (p : Bool) (d : Nat) :
    nsqCloseIter k ⟨true, true, c, p, d⟩ = ⟨true, true, c, p, d + k⟩ := by
  induction k generalizing d with
  | zero => rfl
  | succ k ih =>
      show nsqCloseIter k (nsqClose ⟨true, true, c, p, d⟩) = _
      have h1 : nsqClose ⟨true, true, c, p, d⟩ = ⟨true, true, c, p, d + 1⟩ := rfl
      rw [h1, ih]
      have h2 : d + 1 + k = d + (k + 1) := by omega
      rw [h2]

/-- C6: `Close` on the NSQ reader is idempotent: for any number `n ≥ 1` of
calls, the internal shutdown signal is closed exactly once, no call panics
from double-closing it, and every call completes the teardown path
(`disconnect` runs once per call). -/
theorem nsqClose_idempotent (n : Nat) (h : 1 ≤ n) :
    nsqCloseIter n newReaderCloseState =
      { chanClosed := true, onceDone := true, closeCount := 1, panicked := false,
        disconnects := n } := by
  obtain ⟨k, rfl⟩ : ∃ k, n = k + 1 := ⟨n - 1, by omega⟩
  show nsqCloseIter k (nsqClose newReaderCloseState) = _
  have h1 : nsqClose newReaderCloseState = ⟨true, true, 1, false, 1⟩ := rfl
  rw [h1, nsqCloseIter_after]
  have h2 : 1 + k = k + 1 := Nat.add_comm 1 k
  rw [h2]

/-- Witness for C6 at three consecutive `Close` calls. -/
theorem nsqClose_idempotent_witness :
    nsqCloseIter 3 newReaderCloseState =
      { chanClosed := true, onceDone := true, closeCount := 1, panicked := false,
        disconnects := 3 } :=
  nsqClose_idempotent 3 (by decide)

/-- C1: for a batch delivered by `ReadBatch`, acking with a failure outcome
leaves the delivery queued at the origin (redeliverable: the `Requeue`
responds and the trailing `Finish` is a no-op); after redelivery, acking
with a success outcome finalizes it permanently, and the
requeue-all-unacked pass performed when the reader is closed (for any
tracked list `l`) does not make it redeliverable again. -/
theorem nsq_ack_roundtrip (r : NsqReader) (id : Nat) (l : List Nat) :
    let s2 := nsqAckFn id true (nsqReadBatch (.msgAvailable id) r).1.st
    let s4 := nsqAckFn id false (nsqReadBatch (.msgAvailable id) ⟨[], s2⟩).1.st
    s2.originStatus id = .queued ∧
      s4.originStatus id = .finished ∧
      (requeueFinishAll l s4).originStatus id = .finished := by
  intro s2 s4
  have h0 : (msgDeliver id r.st).responded id = false := by simp [msgDeliver]
  have hq := msgRequeue_fresh id (msgDeliver id r.st) h0
  have hs2 : s2 = msgRequeue id (msgDeliver id r.st) := by
    show msgFinish id (msgRequeue id (msgDeliver id r.st)) =
      msgRequeue id (msgDeliver id r.st)
    exact msgFinish_responded id _ hq.2
  have hs2q : s2.originStatus id = .queued := by rw [hs2]; exact hq.1
  have h3 : (msgDeliver id s2).responded id = false := by simp [msgDeliver]
  have hf := msgFinish_fresh id (msgDeliver id s2) h3
  have hs4 : s4 = msgFinish id (msgDeliver id s2) := rfl
  have hs4f : s4.originStatus id = .finished := by rw [hs4]; exact hf.1
  have hs4r : s4.responded id = true := by rw [hs4]; exact hf.2
  have hall := requeueFinishAll_settled l s4 id hs4r
  exact ⟨hs2q, hs4f, hall.2.trans hs4f⟩

/-- C5: every call to `ReadBatch` has exactly one of three outcomes,
determined by the event that wakes the internal `select`: a batch with a
nil error, `ErrTimeout` on context expiry, or `ErrTypeClosed` on the
shutdown signal — and in the last case every previously
delivered-but-unacknowledged message is requeued at the origin before the
call returns. -/
theorem nsq_readBatch_outcomes (r : NsqReader) (ev : ReadEvent) :
    (match ev with
      | .msgAvailable id => (nsqReadBatch ev r).2 = .ok id
      | .ctxDone => (nsqReadBatch ev r).2 = .error .errTimeout
      | .interrupt =>
          (nsqReadBatch ev r).2 = .error .errTypeClosed ∧
            (nsqReadBatch ev r).1.unAckMsgs = [] ∧
            ∀ m ∈ r.unAckMsgs, r.st.responded m = false →
              (nsqReadBatch ev r).1.st.originStatus m = .queued) := by
  cases ev with
  | msgAvailable id => rfl
  | ctxDone => rfl
  | interrupt =>
      refine ⟨rfl, rfl, ?_⟩
      intro m hm hresp
      exact requeueFinishAll_unacked r.unAckMsgs r.st m hm hresp

/-- An example reader holding one unacknowledged in-flight message. -/
def nsqReaderExample : NsqReader :=
  ⟨[0], ⟨fun _ => .inflight, fun _ => false⟩⟩

/-- Witness for C5 at the shutdown event with one unacknowledged message. -/
theorem nsq_readBatch_outcomes_witness :
    (nsqReadBatch .interrupt nsqReaderExample).2 = .error .errTypeClosed ∧
      (nsqReadBatch .interrupt nsqReaderExample).1.st.originStatus 0 = .queued := by
  have h := nsq_readBatch_outcomes nsqReaderExample .interrupt
  exact ⟨h.1, h.2.2 0 (by simp [nsqReaderExample]) rfl⟩

/-! ### Resource reconfiguration engine

Embedding of `resourceFileInfo`, `resInfoFromConfig`,
`resourceFileInfo.applyChanges` and `Reader.reactResourceUpdate` from the
`config` package.  Labels are strings; a component configuration is
abstracted to an opaque `Nat` payload.  Go maps are modelled as association
lists (some iteration order); the Registry manager's `Store<Category>`
calls are modelled by a success oracle plus, following §4.2 of the spec
(the manager implementation itself is not part of this slice), a
store-or-replace on the registry slot for that category and label. -/

/-- Resource categories handled by the engine. -/
inductive Category where
  | rateLimit
  | cache
  | processor
  | input
  | output
deriving DecidableEq, Repr

/-- Lookup in an association list. -/
def alistGet {κ β : Type} [DecidableEq κ] (k : κ) : List (κ × β) → Option β
  | [] => none
  | (k1, v1) :: rest => if k1 = k then some v1 else alistGet k rest

/-- Insert-or-replace in an association list (Go map assignment). -/
def alistPut {κ β : Type} [DecidableEq κ] (k : κ) (v : β) : List (κ × β) → List (κ × β)
  | [] => [(k, v)]
  | (k1, v1) :: rest => if k1 = k then (k, v) :: rest else (k1, v1) :: alistPut k v rest

/-- The per-file `resourceFileInfo`: for each category, the labelled
configurations last read from the file. -/
structure ResourceFileInfo where
  inputs : List (String × Nat)
  processors : List (String × Nat)
  outputs : List (String × Nat)
  caches : List (String × Nat)
  rateLimits : List (String × Nat)
deriving DecidableEq, Repr

/-- The parsed `manager.ResourceConfig`: one list of labelled
configurations per category, in file order. -/
structure ResourceConfig where
  resourceInputs : List (String × Nat)
  resourceProcessors : List (String × Nat)
  resourceOutputs : List (String × Nat)
  resourceCaches : List (String × Nat)
  resourceRateLimits : List (String × Nat)
deriving DecidableEq, Repr

/-- Embedding of `resInfoFromConfig`: build the per-category label maps
from the parsed lists (later duplicate labels overwrite earlier ones, as
with a Go map). -/
def resInfoFromConfig (c : ResourceConfig) : ResourceFileInfo :=
  { inputs := c.resourceInputs.foldl (fun acc kv => alistPut kv.1 kv.2 acc) []
    processors := c.resourceProcessors.foldl (fun acc kv => alistPut kv.1 kv.2 acc) []
    outputs := c.resourceOutputs.foldl (fun acc kv => alistPut kv.1 kv.2 acc) []
    caches := c.resourceCaches.foldl (fun acc kv => alistPut kv.1 kv.2 acc) []
    rateLimits := c.resourceRateLimits.foldl (fun acc kv => alistPut kv.1 kv.2 acc) [] }

/-- The Registry manager: the live-entry table keyed by category and label,
plus the success oracle for `Store<Category>` (whether constructing and
starting the new instance succeeds). -/
structure Manager where
  registry : List ((Category × String) × Nat)
  storeOk : Category → String → Nat → Bool

/-- Modelled from the spec: the registry effect of a successful
`Store<Category>` call (§4.2 of the spec; the manager package is outside
this slice) — the new instance is swapped into the slot for that category
and label, replacing any previous occupant. -/
def registryStore (reg : List ((Category × String) × Nat)) (c : Category)
    (k : String) (v : Nat) : List ((Category × String) × Nat) :=
  alistPut (c, k) v reg

/-- One attempted `Store<Category>` call recorded in the apply trace. -/
structure StoreEvent where
  cat : Category
  label : String
  conf : Nat
  ok : Bool
deriving DecidableEq, Repr

/-- Replay of a trace of store events over a registry: successful events
store, failed events leave the registry unchanged. -/
def applyEvents (reg : List ((Category × String) × Nat)) (t : List StoreEvent) :
    List ((Category × String) × Nat) :=
  t.foldl (fun r e => if e.ok then registryStore r e.cat e.label e.conf else r) reg

/-- One `for k, v := range` loop of `applyChanges` over a single category:
attempt `Store` for each entry in turn, stopping at the first failure.
Returns the manager after the attempted calls, the trace of attempts, and
whether all succeeded. -/
def applyCategory (c : Category) : Manager → List (String × Nat) →
    Manager × List StoreEvent × Bool
  | m, [] => (m, [], true)
  | m, (k, v) :: rest =>
    if m.storeOk c k v then
      let res := applyCategory c { m with registry := registryStore m.registry c k v } rest
      (res.1, ⟨c, k, v, true⟩ :: res.2.1, res.2.2)
    else (m, [⟨c, k, v, false⟩], false)

/-- Sequential run of several category loops, aborting as soon as one
category loop reports a failed `Store` call (the `return false` in the Go
method). -/
def applyCategories : List (Category × List (String × Nat)) → Manager →
    Manager × List StoreEvent × Bool
  | [], m => (m, [], true)
  | (c, l) :: rest, m =>
    let r := applyCategory c m l
    if r.2.2 then
      let rr := applyCategories rest r.1
      (rr.1, r.2.1 ++ rr.2.1, rr.2.2)
    else (r.1, r.2.1, false)

/-- Embedding of `resourceFileInfo.applyChanges`: apply the five categories
in the fixed order rate limits, caches, processors, inputs, outputs,
aborting immediately when any `Store` call fails. -/
def applyChanges (i : ResourceFileInfo) (m : Manager) :
    Manager × List StoreEvent × Bool :=
  applyCategories
    [(.rateLimit, i.rateLimits), (.cache, i.caches), (.processor, i.processors),
      (.input, i.inputs), (.output, i.outputs)] m

/-- The snapshot table of the configuration `Reader`: per file path, the
`resourceFileInfo` last successfully read and applied. -/
structure ConfReader where
  resourceFileInfo : List (String × ResourceFileInfo)
deriving DecidableEq, Repr

/-- Result of `readResource` on the updated file, passed in as data: either
the read/parse failed outright, or it produced lint messages and a parsed
configuration. -/
inductive ParseResult where
  | failed
  | parsed (lints : List String) (conf : ResourceConfig)

/-- Embedding of `Reader.reactResourceUpdate`: skip unknown paths, skip on
read errors, reject lint messages in strict mode, otherwise apply the new
configuration and replace the snapshot only when the whole apply
succeeded.  Returns the new reader, the new manager, the trace of
attempted `Store` calls, and the boolean the Go method returns. -/
def reactResourceUpdate (r : ConfReader) (m : Manager) (strict : Bool)
    (path : String) (parse : ParseResult) :
    ConfReader × Manager × List StoreEvent × Bool :=
  if (alistGet path r.resourceFileInfo).isNone then (r, m, [], true)
  else
    match parse with
    | .failed => (r, m, [], true)
    | .parsed lints conf =>
      if strict ∧ lints ≠ [] then (r, m, [], true)
      else
        let newInfo := resInfoFromConfig conf
        let res := applyChanges newInfo m
        if res.2.2 then
          ({ resourceFileInfo := alistPut path newInfo r.resourceFileInfo },
            res.1, res.2.1, true)
        else (r, res.1, res.2.1, false)

/-! Lemmas about the association-list registry and the apply trace. -/

theorem alistGet_put {κ β : Type} [DecidableEq κ] (k k' : κ) (v : β)
    (l : List (κ × β)) :
    alistGet k' (alistPut k v l) = if k = k' then some v else alistGet k' l := by
  induction l with
  | nil => rfl
  | cons kv rest ih =>
      obtain ⟨k1, v1⟩ := kv
      by_cases h1 : k1 = k
      · subst h1
        by_cases h2 : k1 = k'
        · subst h2; simp [alistPut, alistGet]
        · simp [alistPut, alistGet, h2]
      · by_cases h2 : k1 = k'
        · subst h2
          have hk : ¬ k = k1 := fun h => h1 h.symm
          simp [alistPut, alistGet, h1, hk]
        · simp [alistPut, alistGet, h1, h2, ih]

theorem applyEvents_preserves (t : List StoreEvent)
    (reg : List ((Category × String) × Nat)) (key : Category × String)
    (h : (alistGet key reg).isSome = true) :
    (alistGet key (applyEvents reg t)).isSome = true := by
  induction t generalizing reg with
  | nil => exact h
  | cons e rest ih =>
      show (alistGet key
        (applyEvents (if e.ok then registryStore reg e.cat e.label e.conf else reg)
          rest)).isSome = true
      apply ih
      by_cases he : e.ok
      · simp only [he, if_true]
        unfold registryStore
        rw [alistGet_put]
        by_cases hk : (e.cat, e.label) = key <;> simp [hk, h]
      · simpa [he] using h

theorem applyEvents_append (reg : List ((Category × String) × Nat))
    (t1 t2 : List StoreEvent) :
    applyEvents reg (t1 ++ t2) = applyEvents (applyEvents reg t1) t2 :=
  List.foldl_append _ _ t1 t2

/-- A trace produced by one category loop: all calls succeeded, or a
successful prefix is followed by exactly one failing call and nothing
after it. -/
def GoodTrace : List StoreEvent → Bool → Prop
  | t, true => ∀ e ∈ t, e.ok = true
  | t, false => ∃ pre e, t = pre ++ [e] ∧ e.ok = false ∧ ∀ x ∈ pre, x.ok = true

theorem goodTrace_append (t1 t2 : List StoreEvent) (b : Bool)
    (h1 : ∀ e ∈ t1, e.ok = true) (h2 : GoodTrace t2 b) :
    GoodTrace (t1 ++ t2) b := by
  cases b with
  | true =>
      intro e he
      rcases List.mem_append.mp he with h | h
      · exact h1 e h
      · exact h2 e h
  | false =>
      obtain ⟨pre, e, rfl, he, hpre⟩ := h2
      refine ⟨t1 ++ pre, e, by simp, he, ?_⟩
      intro x hx
      rcases List.mem_append.mp hx with h | h
      · exact h1 x h
      · exact hpre x h

theorem applyCategory_registry (c : Category) (m : Manager)
    (l : List (String × Nat)) :
    (applyCategory c m l).1.registry =
      applyEvents m.registry (applyCategory c m l).2.1 := by
  induction l generalizing m with
  | nil => rfl
  | cons kv rest ih =>
      obtain ⟨k, v⟩ := kv
      by_cases h : m.storeOk c k v
      · simp only [applyCategory, h, if_true]
        show (applyCategory c _ rest).1.registry = applyEvents m.registry _
        rw [ih]
        rfl
      · simp [applyCategory, h, applyEvents, registryStore]

theorem applyCategory_good (c : Category) (m : Manager) (l : List (String × Nat)) :
    GoodTrace (applyCategory c m l).2.1 (applyCategory c m l).2.2 := by
  induction l generalizing m with
  | nil => intro e he; cases he
  | cons kv rest ih =>
      obtain ⟨k, v⟩ := kv
      by_cases h : m.storeOk c k v
      · simp only [applyCategory, h, if_true]
        have hrest := ih { m with registry := registryStore m.registry c k v }
        cases hb : (applyCategory c { m with registry := registryStore m.registry c k v } rest).2.2 with
        | true =>
            rw [hb] at hrest
            intro e he
            rcases List.mem_cons.mp he with rfl | he
            · rfl
            · exact hrest e he
        | false =>
            rw [hb] at hrest
            obtain ⟨pre, e, h1, h2, h3⟩ := hrest
            refine ⟨⟨c, k, v, true⟩ :: pre, e, by rw [h1]; rfl, h2, ?_⟩
            intro x hx
            rcases List.mem_cons.mp hx with rfl | hx
            · rfl
            · exact h3 x hx
      · rw [show applyCategory c m ((k, v) :: rest) = (m, [⟨c, k, v, false⟩], false) from
          by simp [applyCategory, h]]
        exact ⟨[], ⟨c, k, v, false⟩, rfl, rfl, by intro x hx; cases hx⟩

theorem applyCategory_success (c : Category) (m : Manager) (l : List (String × Nat))
    (h : (applyCategory c m l).2.2 = true) :
    (applyCategory c m l).2.1 =
      l.map (fun kv => ⟨c, kv.1, kv.2, true⟩) := by
  induction l generalizing m with
  | nil => rfl
  | cons kv rest ih =>
      obtain ⟨k, v⟩ := kv
      by_cases hs : m.storeOk c k v
      · simp only [applyCategory, hs, if_true] at h ⊢
        rw [List.map_cons]
        exact congrArg _ (ih _ h)
      · simp [applyCategory, hs] at h

theorem applyCategory_events (c : Category) (m : Manager) (l : List (String × Nat)) :
    ∀ e ∈ (applyCategory c m l).2.1, e.cat = c ∧ (e.label, e.conf) ∈ l := by
  induction l generalizing m with
  | nil => intro e he; cases he
  | cons kv rest ih =>
      obtain ⟨k, v⟩ := kv
      intro e he
      by_cases hs : m.storeOk c k v
      · simp only [applyCategory, hs, if_true] at he
        rcases List.mem_cons.mp he with rfl | he
        · exact ⟨rfl, List.mem_cons_self _ _⟩
        · obtain ⟨h1, h2⟩ := ih _ e he
          exact ⟨h1, List.mem_cons_of_mem _ h2⟩
      · simp only [applyCategory, hs, if_false] at he
        rcases List.mem_cons.mp he with rfl | he
        · exact ⟨rfl, List.mem_cons_self _ _⟩
        · cases he

theorem applyCategory_allOk (c : Category) (m : Manager) (l : List (String × Nat))
    (h : (applyCategory c m l).2.2 = true) :
    ∀ e ∈ (applyCategory c m l).2.1, e.ok = true := by
  have hg := applyCategory_good c m l
  rw [h] at hg
  exact hg

theorem applyCategories_cons_pos (c : Category) (l : List (String × Nat))
    (rest : List (Category × List (String × Nat))) (m : Manager)
    (b : (applyCategory c m l).2.2 = true) :
    applyCategories ((c, l) :: rest) m =
      ((applyCategories rest (applyCategory c m l).1).1,
        (applyCategory c m l).2.1 ++ (applyCategories rest (applyCategory c m l).1).2.1,
        (applyCategories rest (applyCategory c m l).1).2.2) := by
  simp [applyCategories, b]

theorem applyCategories_cons_neg (c : Category) (l : List (String × Nat))
    (rest : List (Category × List (String × Nat))) (m : Manager)
    (b : ¬ (applyCategory c m l).2.2 = true) :
    applyCategories ((c, l) :: rest) m =
      ((applyCategory c m l).1, (applyCategory c m l).2.1, false) := by
  simp [applyCategories, b]

theorem applyCategories_registry (cs : List (Category × List (String × Nat)))
    (m : Manager) :
    (applyCategories cs m).1.registry =
      applyEvents m.registry (applyCategories cs m).2.1 := by
  induction cs generalizing m with
  | nil => rfl
  | cons cl rest ih =>
      obtain ⟨c, l⟩ := cl
      by_cases b : (applyCategory c m l).2.2 = true
      · rw [applyCategories_cons_pos c l rest m b]
        dsimp only
        rw [ih, applyEvents_append, ← applyCategory_registry]
      · rw [applyCategories_cons_neg c l rest m b]
        exact applyCategory_registry c m l

theorem applyCategories_good (cs : List (Category × List (String × Nat)))
    (m : Manager) :
    GoodTrace (applyCategories cs m).2.1 (applyCategories cs m).2.2 := by
  induction cs generalizing m with
  | nil => intro e he; cases he
  | cons cl rest ih =>
      obtain ⟨c, l⟩ := cl
      by_cases b : (applyCategory c m l).2.2 = true
      · rw [applyCategories_cons_pos c l rest m b]
        exact goodTrace_append _ _ _ (applyCategory_allOk c m l b) (ih _)
      · rw [applyCategories_cons_neg c l rest m b]
        have hg := applyCategory_good c m l
        rw [Bool.not_eq_true] at b
        rw [b] at hg
        exact hg

theorem applyCategories_events (cs : List (Category × List (String × Nat)))
    (m : Manager) :
    ∀ e ∈ (applyCategories cs m).2.1,
      ∃ cl ∈ cs, e.cat = cl.1 ∧ (e.label, e.conf) ∈ cl.2 := by
  induction cs generalizing m with
  | nil => intro e he; cases he
  | cons cl rest ih =>
      obtain ⟨c, l⟩ := cl
      intro e he
      by_cases b : (applyCategory c m l).2.2 = true
      · rw [applyCategories_cons_pos c l rest m b] at he
        dsimp only at he
        rcases List.mem_append.mp he with h | h
        · exact ⟨(c, l), List.mem_cons_self _ _, applyCategory_events c m l e h⟩
        · obtain ⟨cl', hcl', hp⟩ := ih _ e h
          exact ⟨cl', List.mem_cons_of_mem _ hcl', hp⟩
      · rw [applyCategories_cons_neg c l rest m b] at he
        exact ⟨(c, l), List.mem_cons_self _ _, applyCategory_events c m l e he⟩

theorem forall2_nils {α : Type} (P : α → List StoreEvent → Prop) (l : List α)
    (h : ∀ x ∈ l, P x []) :
    List.Forall₂ P l (l.map fun _ => []) := by
  induction l with
  | nil => exact List.Forall₂.nil
  | cons a t ih =>
      exact List.Forall₂.cons (h a (List.mem_cons_self _ _))
        (ih fun x hx => h x (List.mem_cons_of_mem _ hx))

theorem applyCategories_decomp (cs : List (Category × List (String × Nat)))
    (m : Manager) :
    ∃ ts : List (List StoreEvent),
      (applyCategories cs m).2.1 = ts.flatten ∧
      List.Forall₂ (fun (cl : Category × List (String × Nat)) (t : List StoreEvent) =>
        (∀ e ∈ t, e.cat = cl.1 ∧ (e.label, e.conf) ∈ cl.2) ∧
        ((applyCategories cs m).2.2 = true →
          t = cl.2.map (fun kv => ⟨cl.1, kv.1, kv.2, true⟩))) cs ts := by
  induction cs generalizing m with
  | nil => exact ⟨[], rfl, List.Forall₂.nil⟩
  | cons cl rest ih =>
      obtain ⟨c, l⟩ := cl
      by_cases b : (applyCategory c m l).2.2 = true
      · obtain ⟨ts, hjoin, hf⟩ := ih (applyCategory c m l).1
        refine ⟨(applyCategory c m l).2.1 :: ts, ?_, ?_⟩
        · rw [applyCategories_cons_pos c l rest m b]
          dsimp only
          rw [hjoin, List.flatten_cons]
        · refine List.Forall₂.cons ⟨applyCategory_events c m l, ?_⟩ ?_
          · intro hall
            rw [applyCategories_cons_pos c l rest m b] at hall
            dsimp only at hall
            exact applyCategory_success c m l b
          · apply hf.imp
            intro a t hp
            refine ⟨hp.1, ?_⟩
            intro hall
            rw [applyCategories_cons_pos c l rest m b] at hall
            dsimp only at hall
            exact hp.2 hall
      · refine ⟨(applyCategory c m l).2.1 :: (rest.map fun _ => []), ?_, ?_⟩
        · rw [applyCategories_cons_neg c l rest m b]
          dsimp only
          have hnil : (rest.map fun (_ : Category × List (String × Nat)) =>
              ([] : List StoreEvent)).flatten = [] := by
            induction rest with
            | nil => rfl
            | cons a t iht => simp [iht]
          rw [List.flatten_cons, hnil, List.append_nil]
        · have hfalse : (applyCategories ((c, l) :: rest) m).2.2 = false := by
            rw [applyCategories_cons_neg c l rest m b]
          refine List.Forall₂.cons ⟨applyCategory_events c m l, ?_⟩ ?_
          · intro hall
            rw [hfalse] at hall
            cases hall
          · apply forall2_nils
            intro x hx
            refine ⟨(fun e he => nomatch he), ?_⟩
            intro hall
            rw [hfalse] at hall
            cases hall

/-- The category-indexed view of a `resourceFileInfo`. -/
def categoryEntries (i : ResourceFileInfo) : Category → List (String × Nat)
  | .rateLimit => i.rateLimits
  | .cache => i.caches
  | .processor => i.processors
  | .input => i.inputs
  | .output => i.outputs

theorem applyChanges_registry (i : ResourceFileInfo) (m : Manager) :
    (applyChanges i m).1.registry =
      applyEvents m.registry (applyChanges i m).2.1 :=
  applyCategories_registry _ m

theorem applyChanges_events (i : ResourceFileInfo) (m : Manager) :
    ∀ e ∈ (applyChanges i m).2.1, (e.label, e.conf) ∈ categoryEntries i e.cat := by
  intro e he
  obtain ⟨cl, hcl, hcat, hmem⟩ := applyCategories_events _ m e he
  fin_cases hcl <;> (rw [hcat]; exact hmem)

theorem applyChanges_preserves_keys (i : ResourceFileInfo) (m : Manager)
    (key : Category × String)
    (h : (alistGet key m.registry).isSome = true) :
    (alistGet key (applyChanges i m).1.registry).isSome = true := by
  rw [applyChanges_registry]
  exact applyEvents_preserves _ _ _ h

/-- C3: `Store` calls are issued in the fixed category order rate limits,
caches, processors, inputs, outputs; when the whole apply succeeds the
cache and processor segments are exactly the declared cache and processor
entries in order, so for a file declaring a cache `C` and a processor `P`
the `Store` call for `C` precedes the one for `P`. -/
theorem applyChanges_category_order (i : ResourceFileInfo) (m : Manager) :
    ∃ t1 t2 t3 t4 t5,
      (applyChanges i m).2.1 = t1 ++ (t2 ++ (t3 ++ (t4 ++ t5))) ∧
      (∀ e ∈ t1, e.cat = .rateLimit) ∧ (∀ e ∈ t2, e.cat = .cache) ∧
      (∀ e ∈ t3, e.cat = .processor) ∧ (∀ e ∈ t4, e.cat = .input) ∧
      (∀ e ∈ t5, e.cat = .output) ∧
      ((applyChanges i m).2.2 = true →
        t2 = i.caches.map (fun kv => ⟨.cache, kv.1, kv.2, true⟩) ∧
        t3 = i.processors.map (fun kv => ⟨.processor, kv.1, kv.2, true⟩)) := by
  obtain ⟨ts, hjoin, hf⟩ := applyCategories_decomp
    [(.rateLimit, i.rateLimits), (.cache, i.caches), (.processor, i.processors),
      (.input, i.inputs), (.output, i.outputs)] m
  cases hf with | @cons _ t1 _ ts1 h1 hf =>
  cases hf with | @cons _ t2 _ ts2 h2 hf =>
  cases hf with | @cons _ t3 _ ts3 h3 hf =>
  cases hf with | @cons _ t4 _ ts4 h4 hf =>
  cases hf with | @cons _ t5 _ ts5 h5 hf =>
  cases hf with | nil =>
  refine ⟨t1, t2, t3, t4, t5, ?_, ?_, ?_, ?_, ?_, ?_, ?_⟩
  · have hfl : ([t1, t2, t3, t4, t5] : List (List StoreEvent)).flatten =
        t1 ++ (t2 ++ (t3 ++ (t4 ++ t5))) := by simp
    exact hjoin.trans hfl
  · exact fun e he => (h1.1 e he).1
  · exact fun e he => (h2.1 e he).1
  · exact fun e he => (h3.1 e he).1
  · exact fun e he => (h4.1 e he).1
  · exact fun e he => (h5.1 e he).1
  · exact fun hok => ⟨h2.2 hok, h3.2 hok⟩

/-- An empty per-file info record, used in concrete examples. -/
def emptyInfo : ResourceFileInfo := ⟨[], [], [], [], []⟩

/-- A parsed file declaring one cache `C` and one processor `P`. -/
def confCacheProc : ResourceConfig :=
  { resourceInputs := [], resourceProcessors := [("P", 2)], resourceOutputs := [],
    resourceCaches := [("C", 1)], resourceRateLimits := [] }

/-- A parsed file declaring a single rate limit. -/
def confOneRL : ResourceConfig := ⟨[], [], [], [], [("rl", 1)]⟩

/-- A manager whose `Store` calls always succeed. -/
def managerAllOk : Manager := ⟨[], fun _ _ _ => true⟩

/-- A manager holding one live cache entry whose `Store` calls always
fail. -/
def managerAllFail : Manager := ⟨[((Category.cache, "old"), 7)], fun _ _ _ => false⟩

/-- A reader that knows the file path `p`. -/
def readerKnown : ConfReader := ⟨[("p", emptyInfo)]⟩

/-- Witness for C3 on a file declaring cache `C` and processor `P` with an
all-success manager. -/
theorem applyChanges_category_order_witness :
    ∃ t1 t2 t3 t4 t5,
      (applyChanges (resInfoFromConfig confCacheProc) managerAllOk).2.1 =
        t1 ++ (t2 ++ (t3 ++ (t4 ++ t5))) ∧
      (∀ e ∈ t1, e.cat = .rateLimit) ∧ (∀ e ∈ t2, e.cat = .cache) ∧
      (∀ e ∈ t3, e.cat = .processor) ∧ (∀ e ∈ t4, e.cat = .input) ∧
      (∀ e ∈ t5, e.cat = .output) ∧
      ((applyChanges (resInfoFromConfig confCacheProc) managerAllOk).2.2 = true →
        t2 = (resInfoFromConfig confCacheProc).caches.map
          (fun kv => ⟨.cache, kv.1, kv.2, true⟩) ∧
        t3 = (resInfoFromConfig confCacheProc).processors.map
          (fun kv => ⟨.processor, kv.1, kv.2, true⟩)) :=
  applyChanges_category_order (resInfoFromConfig confCacheProc) managerAllOk

/-- C2: if any `Store` call fails during a reconfiguration, the engine
stops at the failing call (the trace is a successful prefix followed by
exactly the one failing attempt and nothing after it), keeps the entries
already stored applied (the resulting registry is the replay of the trace
over the old registry — no rollback), and does not replace the file's
snapshot (the reader is returned unchanged). -/
theorem react_partial_failure (r : ConfReader) (m : Manager) (strict : Bool)
    (path : String) (lints : List String) (conf : ResourceConfig)
    (hknown : (alistGet path r.resourceFileInfo).isNone = false)
    (hstrict : ¬(strict = true ∧ lints ≠ []))
    (hfail : (applyChanges (resInfoFromConfig conf) m).2.2 = false) :
    reactResourceUpdate r m strict path (.parsed lints conf) =
      (r, (applyChanges (resInfoFromConfig conf) m).1,
        (applyChanges (resInfoFromConfig conf) m).2.1, false) ∧
      (∃ pre e, (applyChanges (resInfoFromConfig conf) m).2.1 = pre ++ [e] ∧
        e.ok = false ∧ ∀ x ∈ pre, x.ok = true) ∧
      (applyChanges (resInfoFromConfig conf) m).1.registry =
        applyEvents m.registry (applyChanges (resInfoFromConfig conf) m).2.1 := by
  refine ⟨?_, ?_, applyChanges_registry _ m⟩
  · have hk : ¬ (alistGet path r.resourceFileInfo).isNone = true := by simp [hknown]
    simp [reactResourceUpdate, hk, hstrict, hfail]
  · have hg : GoodTrace (applyChanges (resInfoFromConfig conf) m).2.1
        (applyChanges (resInfoFromConfig conf) m).2.2 := applyCategories_good _ m
    rw [hfail] at hg
    exact hg

/-- Witness for C2: a known file declaring one rate limit, applied against
a manager whose `Store` calls fail. -/
theorem react_partial_failure_witness :
    reactResourceUpdate readerKnown managerAllFail false "p" (.parsed [] confOneRL) =
      (readerKnown, (applyChanges (resInfoFromConfig confOneRL) managerAllFail).1,
        (applyChanges (resInfoFromConfig confOneRL) managerAllFail).2.1, false) ∧
      (∃ pre e, (applyChanges (resInfoFromConfig confOneRL) managerAllFail).2.1 =
        pre ++ [e] ∧ e.ok = false ∧ ∀ x ∈ pre, x.ok = true) ∧
      (applyChanges (resInfoFromConfig confOneRL) managerAllFail).1.registry =
        applyEvents managerAllFail.registry
          (applyChanges (resInfoFromConfig confOneRL) managerAllFail).2.1 :=
  react_partial_failure readerKnown managerAllFail false "p" [] confOneRL
    (by decide) (by decide) (by decide)

/-- C4: in strict mode, a parse result carrying at least one lint message
makes the engine abort before issuing any `Store` call: the manager (and
hence the Registry) is returned unchanged, the trace of attempted `Store`
calls is empty, and the snapshot table is untouched. -/
theorem react_strict_lint_gate (r : ConfReader) (m : Manager) (path : String)
    (lints : List String) (conf : ResourceConfig)
    (hknown : (alistGet path r.resourceFileInfo).isNone = false)
    (hlints : lints ≠ []) :
    reactResourceUpdate r m true path (.parsed lints conf) = (r, m, [], true) := by
  have hk : ¬ (alistGet path r.resourceFileInfo).isNone = true := by simp [hknown]
  simp [reactResourceUpdate, hk, hlints]

/-- Witness for C4: one lint message, strict mode, known path. -/
theorem react_strict_lint_gate_witness :
    reactResourceUpdate readerKnown managerAllOk true "p"
        (.parsed ["(1,1) lint"] confOneRL) =
      (readerKnown, managerAllOk, [], true) :=
  react_strict_lint_gate readerKnown managerAllOk "p" ["(1,1) lint"] confOneRL
    (by decide) (by decide)

/-- C7: a reconfiguration only ever stores entries for labels present in
the newly parsed file, and never removes a registry entry: every key live
before the update is still live after it, whatever the parse result and
mode. -/
theorem react_only_stores (r : ConfReader) (m : Manager) (strict : Bool)
    (path : String) (parse : ParseResult) :
    (∀ key, (alistGet key m.registry).isSome = true →
        (alistGet key
          (reactResourceUpdate r m strict path parse).2.1.registry).isSome = true) ∧
      (∀ lints conf, parse = .parsed lints conf →
        ∀ e ∈ (reactResourceUpdate r m strict path parse).2.2.1,
          (e.label, e.conf) ∈ categoryEntries (resInfoFromConfig conf) e.cat) := by
  by_cases hk : (alistGet path r.resourceFileInfo).isNone = true
  · have heq : reactResourceUpdate r m strict path parse = (r, m, [], true) := by
      simp [reactResourceUpdate, hk]
    rw [heq]
    exact ⟨fun key h => h, fun lints conf _ e he => nomatch he⟩
  · cases parse with
    | failed =>
        have heq : reactResourceUpdate r m strict path .failed = (r, m, [], true) := by
          simp [reactResourceUpdate, hk]
        rw [heq]
        exact ⟨fun key h => h, fun lints conf hpc => nomatch hpc⟩
    | parsed lints conf =>
        by_cases hs : strict = true ∧ lints ≠ []
        · have heq : reactResourceUpdate r m strict path (.parsed lints conf) =
              (r, m, [], true) := by
            simp [reactResourceUpdate, hk, hs]
          rw [heq]
          exact ⟨fun key h => h, fun l2 c2 _ e he => nomatch he⟩
        · by_cases ha : (applyChanges (resInfoFromConfig conf) m).2.2 = true
          · have heq : reactResourceUpdate r m strict path (.parsed lints conf) =
                ({ resourceFileInfo :=
                    alistPut path (resInfoFromConfig conf) r.resourceFileInfo },
                  (applyChanges (resInfoFromConfig conf) m).1,
                  (applyChanges (resInfoFromConfig conf) m).2.1, true) := by
              simp [reactResourceUpdate, hk, hs, ha]
            rw [heq]
            refine ⟨fun key h => applyChanges_preserves_keys _ m key h, ?_⟩
            intro l2 c2 hpc e he
            cases hpc
            exact applyChanges_events _ m e he
          · have heq : reactResourceUpdate r m strict path (.parsed lints conf) =
                (r, (applyChanges (resInfoFromConfig conf) m).1,
                  (applyChanges (resInfoFromConfig conf) m).2.1, false) := by
              simp [reactResourceUpdate, hk, hs, ha]
            rw [heq]
            refine ⟨fun key h => applyChanges_preserves_keys _ m key h, ?_⟩
            intro l2 c2 hpc e he
            cases hpc
            exact applyChanges_events _ m e he

/-- Witness for C7: the pre-existing cache entry survives an update that
fails to store a new rate limit, and every attempted event belongs to the
new file. -/
theorem react_only_stores_witness :
    (alistGet (Category.cache, "old")
      (reactResourceUpdate readerKnown managerAllFail false "p"
        (.parsed [] confOneRL)).2.1.registry).isSome = true ∧
    ∀ e ∈ (reactResourceUpdate readerKnown managerAllFail false "p"
        (.parsed [] confOneRL)).2.2.1,
      (e.label, e.conf) ∈ categoryEntries (resInfoFromConfig confOneRL) e.cat := by
  have h := react_only_stores readerKnown managerAllFail false "p" (.parsed [] confOneRL)
  exact ⟨h.1 (Category.cache, "old") (by decide), h.2 [] confOneRL rfl⟩

/-! ### The `mutation` processor

Embedding of `mutationProc.ProcessBatch` from the `pure` package.  A
message carries an opaque payload and the processing-error mark settable
by `SetError`; the Bloblang executor applied to one message
(`batch.BloblangMutate(i, m.exec)`) is passed in as a function. -/

/-- A pipeline message: opaque payload plus the attached processing
error. -/
structure PMsg where
  body : Nat
  procErr : Option String
deriving DecidableEq, Repr

/-- Result of running the mutation mapping on one message: a mapping
error, deletion of the message (`newPart == nil`), or a mutated part. -/
inductive MutateResult where
  | failed (err : String)
  | deleted
  | mapped (msg : PMsg)
deriving DecidableEq, Repr

/-- Embedding of `mutationProc.ProcessBatch`: each message is mutated in
turn; a failed mapping keeps the original message with its error set, a
deletion drops it, otherwise the new part is kept.  An empty accumulated
batch yields zero output batches and a nil error. -/
def mutationProcessBatch (exec : PMsg → MutateResult) (batch : List PMsg) :
    List (List PMsg) × Option String :=
  let newBatch := batch.foldl (fun acc msg =>
    match exec msg with
    | .failed e => acc ++ [{ msg with procErr := some e }]
    | .deleted => acc
    | .mapped newPart => acc ++ [newPart]) []
  if newBatch = [] then ([], none)
  else ([newBatch], none)

/-- C8: a batch in which the mutation mapping deletes every message
produces zero output batches and a nil error — an empty result is a valid
"no output" signal, not an error. -/
theorem mutation_all_deleted (exec : PMsg → MutateResult) (batch : List PMsg)
    (h : ∀ msg ∈ batch, exec msg = .deleted) :
    mutationProcessBatch exec batch = ([], none) := by
  have key : ∀ (l : List PMsg) (acc : List PMsg), (∀ msg ∈ l, exec msg = .deleted) →
      l.foldl (fun acc msg =>
        match exec msg with
        | .failed e => acc ++ [{ msg with procErr := some e }]
        | .deleted => acc
        | .mapped newPart => acc ++ [newPart]) acc = acc := by
    intro l
    induction l with
    | nil => intro acc _; rfl
    | cons a t ih =>
        intro acc hl
        rw [List.foldl_cons, hl a (List.mem_cons_self _ _)]
        exact ih acc (fun x hx => hl x (List.mem_cons_of_mem _ hx))
  simp only [mutationProcessBatch]
  rw [key batch [] h]
  rfl

/-- Witness for C8: a one-message batch whose mapping deletes the
message. -/
theorem mutation_all_deleted_witness :
    mutationProcessBatch (fun _ => .deleted) [⟨1, none⟩] = ([], none) :=
  mutation_all_deleted (fun _ => .deleted) [⟨1, none⟩] (fun _ _ => rfl)

/-! ### The COS batch output

Embedding of `cosOutput.Connect` and `cosOutput.WriteBatch` from
`internal/impl/cos/output.go`.  The `url.Parse` collaborator is passed in
as a function; a message is abstracted to its `AsBytes` result and the two
interpolation results (`directory.String(msg)` and `path.String(msg)`);
bytes are lists of naturals, a newline being byte 10. -/

/-- Configuration fields of the COS output used by `Connect`. -/
structure CosConf where
  url : String
  secretId : String
  secretKey : String
deriving DecidableEq, Repr

/-- The client built by `Connect`: the parsed bucket base URL — absent when
`url.Parse` failed, since that error is discarded — and the authorization
transport credentials. -/
structure CosClient where
  baseURL : Option String
  secretId : String
  secretKey : String
deriving DecidableEq, Repr

/-- Embedding of `cosOutput.Connect`: `u, _ := url.Parse(c.url)` discards
the parse error, the client is constructed unconditionally, and the
returned error is always nil. -/
def cosConnect (urlParse : String → Except String String) (c : CosConf) :
    CosClient × Option String :=
  ({ baseURL := (urlParse c.url).toOption, secretId := c.secretId,
      secretKey := c.secretKey }, none)

/-- C9: `Connect` on the COS output can never fail — it returns a nil
error for every configuration and every behaviour of `url.Parse`, a parse
failure being silently recorded as a missing base URL in the client
rather than reported. -/
theorem cos_connect_never_fails (urlParse : String → Except String String)
    (c : CosConf) :
    (cosConnect urlParse c).2 = none ∧
      (cosConnect urlParse c).1.baseURL = (urlParse c.url).toOption :=
  ⟨rfl, rfl⟩

deriving instance DecidableEq for Except

/-- One batch message as seen by the COS `WriteBatch` loop. -/
structure CosMsg where
  bytesRes : Except String (List Nat)
  dirStr : String
  pathStr : String
deriving DecidableEq, Repr

/-- The loop of `cosOutput.WriteBatch`: while the key is still empty it is
recomputed from the current message's interpolations, then the message
bytes and a newline are appended to the buffer; an `AsBytes` error aborts
the call before the upload. -/
def cosWriteLoop (key : String) (data : List Nat) :
    List CosMsg → Except String (String × List Nat)
  | [] => .ok (key, data)
  | msg :: rest =>
    let key1 := if key = "" then msg.dirStr ++ msg.pathStr else key
    match msg.bytesRes with
    | .error e => .error e
    | .ok content => cosWriteLoop key1 (data ++ content ++ [10]) rest

/-- Embedding of `cosOutput.WriteBatch`: a successful run performs exactly
one `Object.Put`, whose key and body are returned; an error return means
the upload never happened. -/
def cosWriteBatch (batch : List CosMsg) : Except String (String × List Nat) :=
  cosWriteLoop "" [] batch

/-- Object key as the specification describes the code: the interpolated
directory and path of the first message for which that concatenation is
non-empty (empty if every message interpolates to the empty string). -/
def specFirstKey : List CosMsg → String
  | [] => ""
  | msg :: rest =>
    if msg.dirStr ++ msg.pathStr = "" then specFirstKey rest
    else msg.dirStr ++ msg.pathStr

/-- Body of the uploaded object: the concatenation of every message's
bytes, each followed by a newline. -/
def specBody : List CosMsg → List Nat
  | [] => []
  | msg :: rest =>
    (match msg.bytesRes with
      | .ok c => c
      | .error _ => []) ++ [10] ++ specBody rest

/-- A first message whose interpolated directory and path are both
empty. -/
def cosMsgEmptyKey : CosMsg := ⟨.ok [97], "", ""⟩

/-- A second message with a non-empty interpolated key. -/
def cosMsgSecond : CosMsg := ⟨.ok [98], "d", "f"⟩

/-- Counterexample to C10 as stated: with a first message whose
interpolated directory and path are empty, the uploaded object key is
taken from the second message, not from the first message only. -/
theorem cos_writeBatch_key_counterexample :
    cosWriteBatch [cosMsgEmptyKey, cosMsgSecond] = .ok ("df", [97, 10, 98, 10]) ∧
      "df" ≠ cosMsgEmptyKey.dirStr ++ cosMsgEmptyKey.pathStr := by
  exact ⟨rfl, by decide⟩

theorem cosWriteLoop_ok (batch : List CosMsg) :
    ∀ (key : String) (data : List Nat),
      (∀ msg ∈ batch, msg.bytesRes.isOk = true) →
      cosWriteLoop key data batch =
        .ok ((if key = "" then specFirstKey batch else key), data ++ specBody batch) := by
  induction batch with
  | nil =>
      intro key data _
      by_cases hk : key = "" <;> simp [cosWriteLoop, specFirstKey, specBody, hk]
  | cons msg rest ih =>
      intro key data hok
      cases hb : msg.bytesRes with
      | error e =>
          have hmsg := hok msg (List.mem_cons_self _ _)
          rw [hb] at hmsg
          exact absurd hmsg (by simp [Except.isOk, Except.toBool])
      | ok c =>
          have hrest : ∀ m ∈ rest, m.bytesRes.isOk = true :=
            fun m hm => hok m (List.mem_cons_of_mem _ hm)
          simp only [cosWriteLoop, hb]
          rw [ih _ _ hrest]
          by_cases hk : key = ""
          · by_cases hd : msg.dirStr ++ msg.pathStr = ""
            · simp [hk, hd, specFirstKey, specBody, hb, List.append_assoc]
            · simp [hk, hd, specFirstKey, specBody, hb, List.append_assoc]
          · simp [hk, specFirstKey, specBody, hb, List.append_assoc]

theorem cosWriteLoop_error (pre : List CosMsg) :
    ∀ (key : String) (data : List Nat) (msg : CosMsg) (post : List CosMsg)
      (e : String),
      (∀ p ∈ pre, p.bytesRes.isOk = true) → msg.bytesRes = .error e →
      cosWriteLoop key data (pre ++ msg :: post) = .error e := by
  induction pre with
  | nil =>
      intro key data msg post e _ herr
      simp [cosWriteLoop, herr]
  | cons p rest ih =>
      intro key data msg post e hok herr
      cases hb : p.bytesRes with
      | error e2 =>
          have hp := hok p (List.mem_cons_self _ _)
          rw [hb] at hp
          exact absurd hp (by simp [Except.isOk, Except.toBool])
      | ok c =>
          simp only [List.cons_append, cosWriteLoop, hb]
          exact ih _ _ msg post e (fun q hq => hok q (List.mem_cons_of_mem _ hq)) herr

/-- C10 (amended): `WriteBatch` uploads each batch as exactly one object
whose key is the interpolated directory and path of the first message with
a non-empty interpolation (not necessarily the first message), whose body
is every message's bytes each followed by a newline, and an `AsBytes`
failure on any message returns that error before anything is uploaded. -/
theorem cos_writeBatch_spec (batch : List CosMsg) :
    ((∀ msg ∈ batch, msg.bytesRes.isOk = true) →
      cosWriteBatch batch = .ok (specFirstKey batch, specBody batch)) ∧
      (∀ pre msg post e, batch = pre ++ msg :: post →
        (∀ p ∈ pre, p.bytesRes.isOk = true) → msg.bytesRes = .error e →
        cosWriteBatch batch = .error e) := by
  constructor
  · intro hok
    unfold cosWriteBatch
    rw [cosWriteLoop_ok batch "" [] hok]
    simp
  · intro pre msg post e hb hok herr
    unfold cosWriteBatch
    rw [hb]
    exact cosWriteLoop_error pre "" [] msg post e hok herr

/-- Witness for the amended C10: the all-success upload on the two-message
batch, and the abort on a batch whose second message fails `AsBytes`. -/
theorem cos_writeBatch_spec_witness :
    cosWriteBatch [cosMsgEmptyKey, cosMsgSecond] =
      .ok (specFirstKey [cosMsgEmptyKey, cosMsgSecond],
        specBody [cosMsgEmptyKey, cosMsgSecond]) ∧
      cosWriteBatch [cosMsgEmptyKey, ⟨.error "boom", "d", "f"⟩] = .error "boom" := by
  have h1 := cos_writeBatch_spec [cosMsgEmptyKey, cosMsgSecond]
  have h2 := cos_writeBatch_spec [cosMsgEmptyKey, ⟨.error "boom", "d", "f"⟩]
  exact ⟨h1.1 (by decide),
    h2.2 [cosMsgEmptyKey] ⟨.error "boom", "d", "f"⟩ [] "boom" rfl (by decide) rfl⟩
